import Mathlib

/-!
Verification of the benchmark core of `cmd/gostudy/run_benchmarks.go`:
the row-versus-column layout comparison (`sumFoo` / `sumBar`), the
false-sharing comparison (`count` / `countFast`), the deterministic dataset
generators, and the benchmark reporting branches.

Go `int64` values are modelled as mathematical integers together with an
explicit wrap-around function `wrap64` applied at every point where Go
performs 64-bit arithmetic (`sum += x`, `i * 2`, `int64(i)`), so overflow
behaviour is captured faithfully.
-/

namespace GoStudy

/-- Reduction of an unbounded integer to the signed 64-bit range
`[-2^63, 2^63)`, exactly the wrap-around Go applies to `int64` values. -/
def wrap64 (x : Int) : Int :=
  (x + 2 ^ 63) % 2 ^ 64 - 2 ^ 63

/-- Go `int64` addition: add, then wrap. Models `sum += x`. -/
def wadd (x y : Int) : Int :=
  wrap64 (x + y)

theorem wrap64_lb (x : Int) : -2 ^ 63 ≤ wrap64 x := by
  unfold wrap64; omega

theorem wrap64_ub (x : Int) : wrap64 x < 2 ^ 63 := by
  unfold wrap64; omega

theorem wrap64_eq_self {x : Int} (h1 : -2 ^ 63 ≤ x) (h2 : x < 2 ^ 63) :
    wrap64 x = x := by
  unfold wrap64; omega

theorem wrap64_add_left (x y : Int) : wrap64 (wrap64 x + y) = wrap64 (x + y) := by
  unfold wrap64; omega

/-- `type Foo struct { a, b int64 }` (run_benchmarks.go lines 22-25). -/
structure Foo where
  a : Int
  b : Int
deriving DecidableEq, Repr

/-- `type Bar struct { a, b []int64 }` (run_benchmarks.go lines 9-12). -/
structure Bar where
  a : List Int
  b : List Int
deriving DecidableEq, Repr

/-- `type Input struct { a, b int64 }` (run_benchmarks.go lines 119-122). -/
structure Input where
  a : Int
  b : Int
deriving DecidableEq, Repr

/-- `type Result struct { sumA, sumB int64 }` (run_benchmarks.go lines 124-127). -/
structure Result where
  sumA : Int
  sumB : Int
deriving DecidableEq, Repr

/-- `type FastResult struct { sumA int64; _ [56]byte; sumB int64 }`
(run_benchmarks.go lines 129-133). The anonymous 56-byte padding array is
modelled as a list of byte values named `pad`. -/
structure FastResult where
  sumA : Int
  pad : List Nat
  sumB : Int
deriving DecidableEq, Repr

/-- The zero value `Result{}` built at run_benchmarks.go line 139. -/
def Result.init : Result := { sumA := 0, sumB := 0 }

/-- The zero value `FastResult{}` built at run_benchmarks.go line 165: both
sums zero and the padding array zero-filled. -/
def FastResult.init : FastResult :=
  { sumA := 0, pad := List.replicate 56 0, sumB := 0 }

/-- Accumulation loop `for i := 0; i < len(xs); i++ { sum += f(xs[i]) }`
with `int64` addition, expressed as a fold. -/
def sumCol {α : Type} (f : α → Int) (xs : List α) : Int :=
  xs.foldl (fun sum x => wadd sum (f x)) 0

/-- `func sumBar(bar Bar) int64` (run_benchmarks.go lines 14-20): sums the
elements of `bar.a`. -/
def sumBar (bar : Bar) : Int :=
  sumCol id bar.a

/-- `func sumFoo(foo []Foo) int64` (run_benchmarks.go lines 27-33): sums the
`a` fields of the records. -/
def sumFoo (foo : List Foo) : Int :=
  sumCol Foo.a foo

/-- `func count(inputs []Input) Result` (run_benchmarks.go lines 135-157):
two goroutines, one accumulating `inputs[i].a` into `result.sumA`, the other
accumulating `inputs[i].b` into `result.sumB`, starting from `Result{}`.
The per-field loops write disjoint fields, so the joined result holds each
final sum; the interleaving development below justifies that every
scheduling of the two goroutines produces exactly this value. -/
def count (inputs : List Input) : Result :=
  { Result.init with
      sumA := sumCol Input.a inputs
      sumB := sumCol Input.b inputs }

/-- `func countFast(inputs []Input) FastResult` (run_benchmarks.go lines
161-183): same two goroutines as `count`, writing into the padded
`FastResult{}`; the padding field is never assigned. -/
def countFast (inputs : List Input) : FastResult :=
  { FastResult.init with
      sumA := sumCol Input.a inputs
      sumB := sumCol Input.b inputs }

/-- Dataset generator of `SimpleBenchmark` (run_benchmarks.go lines 54-57),
generalised over the size: `fooSlice[i] = Foo{a: int64(i), b: int64(i * 2)}`. -/
def fooDataset (n : Nat) : List Foo :=
  (List.range n).map (fun i : Nat => { a := wrap64 (i : Int), b := wrap64 (2 * (i : Int)) })

/-- Dataset generator of `SimpleBenchmark` (run_benchmarks.go lines 60-67),
generalised over the size: `bar.a[i] = int64(i); bar.b[i] = int64(i * 2)`. -/
def barDataset (n : Nat) : Bar :=
  { a := (List.range n).map (fun i : Nat => wrap64 (i : Int))
    b := (List.range n).map (fun i : Nat => wrap64 (2 * (i : Int))) }

/-- Dataset generator of `CountBenchmark` (run_benchmarks.go lines 191-194),
generalised over the size: `inputs[i] = Input{a: int64(i), b: int64(i * 2)}`. -/
def inputDataset (n : Nat) : List Input :=
  (List.range n).map (fun i : Nat => { a := wrap64 (i : Int), b := wrap64 (2 * (i : Int)) })

/-- Correctness cross-check of `CountBenchmark` (run_benchmarks.go line 237):
`r.sumA == fr.sumA && r.sumB == fr.sumB`. -/
def sumsMatch (r : Result) (fr : FastResult) : Bool :=
  decide (r.sumA = fr.sumA) && decide (r.sumB = fr.sumB)

theorem sumCol_eq_wrap_sum {α : Type} (f : α → Int) (xs : List α) :
    sumCol f xs = wrap64 ((xs.map f).sum) := by
  suffices h : ∀ (l : List α) (s : Int), -2 ^ 63 ≤ s → s < 2 ^ 63 →
      l.foldl (fun sum x => wadd sum (f x)) s = wrap64 (s + (l.map f).sum) by
    have := h xs 0 (by norm_num) (by norm_num)
    simpa [sumCol] using this
  intro l
  induction l with
  | nil =>
    intro s h1 h2
    simp [wrap64_eq_self h1 h2]
  | cons x t ih =>
    intro s h1 h2
    have h := ih (wadd s (f x)) (wrap64_lb _) (wrap64_ub _)
    rw [List.foldl_cons, List.map_cons, List.sum_cons, h, wadd, wrap64_add_left]
    congr 1
    ring

theorem cast_mul_pred (n : Nat) :
    ((n * (n - 1) : Nat) : Int) = (n : Int) * ((n : Int) - 1) := by
  cases n with
  | zero => simp
  | succ m => push_cast [Nat.succ_sub_one]; ring

theorem range_sum_int (n : Nat) :
    2 * ((List.range n).map (fun i : Nat => (i : Int))).sum = (n : Int) * ((n : Int) - 1) := by
  induction n with
  | zero => simp
  | succ m ih =>
    rw [List.range_succ, List.map_append, List.sum_append]
    simp only [List.map_cons, List.map_nil, List.sum_cons, List.sum_nil]
    push_cast
    push_cast at ih
    linear_combination ih

theorem sum_map_two_mul (l : List Nat) :
    (l.map (fun i : Nat => (2 * (i : Int)))).sum = 2 * (l.map (fun i : Nat => (i : Int))).sum := by
  induction l with
  | nil => simp
  | cons x t ih =>
    simp only [List.map_cons, List.sum_cons, ih]
    ring

theorem map_wrap64_cast {n : Nat} (h : n ≤ 2 ^ 63) :
    (List.range n).map (fun i : Nat => wrap64 (i : Int)) =
      (List.range n).map (fun i : Nat => (i : Int)) := by
  apply List.map_congr_left
  intro i hi
  have hin : i < n := List.mem_range.mp hi
  have h1 : (0 : Int) ≤ (i : Int) := Int.ofNat_nonneg i
  have h2 : (i : Int) < 2 ^ 63 := by exact_mod_cast Nat.lt_of_lt_of_le hin h
  exact wrap64_eq_self (by omega) h2

theorem map_wrap64_two_mul {n : Nat} (h : n ≤ 2 ^ 62) :
    (List.range n).map (fun i : Nat => wrap64 (2 * (i : Int))) =
      (List.range n).map (fun i : Nat => (2 * (i : Int))) := by
  apply List.map_congr_left
  intro i hi
  have hin : i < n := List.mem_range.mp hi
  have h1 : (0 : Int) ≤ (i : Int) := Int.ofNat_nonneg i
  have h2 : (i : Int) < 2 ^ 62 := by exact_mod_cast Nat.lt_of_lt_of_le hin h
  exact wrap64_eq_self (by omega) (by omega)

theorem count_sumA_eq (n : Nat) :
    (count (inputDataset n)).sumA =
      wrap64 (((List.range n).map (fun i : Nat => wrap64 (i : Int))).sum) := by
  simp [count, sumCol_eq_wrap_sum, inputDataset, List.map_map, Function.comp_def]

theorem count_sumB_eq (n : Nat) :
    (count (inputDataset n)).sumB =
      wrap64 (((List.range n).map (fun i : Nat => wrap64 (2 * (i : Int)))).sum) := by
  simp [count, sumCol_eq_wrap_sum, inputDataset, List.map_map, Function.comp_def]

theorem sumFoo_dataset_eq (n : Nat) :
    sumFoo (fooDataset n) =
      wrap64 (((List.range n).map (fun i : Nat => wrap64 (i : Int))).sum) := by
  simp [sumFoo, sumCol_eq_wrap_sum, fooDataset, List.map_map, Function.comp_def]

theorem sumBar_dataset_eq (n : Nat) :
    sumBar (barDataset n) =
      wrap64 (((List.range n).map (fun i : Nat => wrap64 (i : Int))).sum) := by
  simp [sumBar, sumCol_eq_wrap_sum, barDataset]

theorem size_bound_of_half {n : Nat} (h : n * (n - 1) / 2 < 2 ^ 63) : n ≤ 2 ^ 63 := by
  by_contra hn
  have h1 : 2 ^ 63 + 1 ≤ n := by omega
  have h2 : 2 ^ 63 ≤ n - 1 := by omega
  have h3 : (2 ^ 63 + 1) * 2 ^ 63 ≤ n * (n - 1) := Nat.mul_le_mul h1 h2
  have h4 : n * (n - 1) < 2 ^ 64 := by omega
  omega

theorem gauss_half {n : Nat} (h : n * (n - 1) / 2 < 2 ^ 63) :
    wrap64 (((List.range n).map (fun i : Nat => wrap64 (i : Int))).sum) =
      ((n * (n - 1) / 2 : Nat) : Int) := by
  rw [map_wrap64_cast (size_bound_of_half h)]
  have h2S := range_sum_int n
  rw [← cast_mul_pred] at h2S
  have hcast : ((n * (n - 1) / 2 : Nat) : Int) = ((n * (n - 1) : Nat) : Int) / 2 :=
    Int.ofNat_ediv _ _
  have hlt : ((n * (n - 1) / 2 : Nat) : Int) < 2 ^ 63 := by exact_mod_cast h
  have hnonneg : (0 : Int) ≤ ((n * (n - 1) : Nat) : Int) := Int.ofNat_nonneg _
  rw [hcast] at hlt ⊢
  unfold wrap64
  omega

theorem gauss_double {n : Nat} (h : n * (n - 1) < 2 ^ 63) :
    wrap64 (((List.range n).map (fun i : Nat => wrap64 (2 * (i : Int)))).sum) =
      ((n * (n - 1) : Nat) : Int) := by
  have hhalf : n * (n - 1) / 2 < 2 ^ 63 := by omega
  have hn : n ≤ 2 ^ 62 := by
    rcases Nat.lt_or_ge n 2 with h2 | h2
    · omega
    · by_contra hc
      have h1 : 2 ^ 62 + 1 ≤ n := by omega
      have hb : 2 ^ 62 ≤ n - 1 := by omega
      have h3 : (2 ^ 62 + 1) * 2 ^ 62 ≤ n * (n - 1) := Nat.mul_le_mul h1 hb
      omega
  rw [map_wrap64_two_mul hn, sum_map_two_mul]
  have h2S := range_sum_int n
  rw [← cast_mul_pred] at h2S
  rw [h2S]
  have hlt : ((n * (n - 1) : Nat) : Int) < 2 ^ 63 := by exact_mod_cast h
  have hnonneg : (0 : Int) ≤ ((n * (n - 1) : Nat) : Int) := Int.ofNat_nonneg _
  exact wrap64_eq_self (by omega) hlt

/-- C1: for every size whose field-B total `N*(N-1)` still fits in `int64`,
both `count` and `countFast` on the generated dataset return
`sumA = 0+1+...+(N-1) = N*(N-1)/2` and `sumB` twice that, namely `N*(N-1)`.
The unbounded form of the claim fails by `int64` overflow, see the
counterexample at `N = 2^33`. -/
theorem count_dataset_sums (n : Nat) (h : n * (n - 1) < 2 ^ 63) :
    (count (inputDataset n)).sumA = ((n * (n - 1) / 2 : Nat) : Int) ∧
    (count (inputDataset n)).sumB = ((n * (n - 1) : Nat) : Int) ∧
    (countFast (inputDataset n)).sumA = ((n * (n - 1) / 2 : Nat) : Int) ∧
    (countFast (inputDataset n)).sumB = ((n * (n - 1) : Nat) : Int) := by
  have ha : (count (inputDataset n)).sumA = ((n * (n - 1) / 2 : Nat) : Int) := by
    rw [count_sumA_eq]; exact gauss_half (by omega)
  have hb : (count (inputDataset n)).sumB = ((n * (n - 1) : Nat) : Int) := by
    rw [count_sumB_eq]; exact gauss_double h
  exact ⟨ha, hb, ha, hb⟩

/-- C1 witness: at `N = 5` the spec scenario holds, `sumA = 10` and
`sumB = 20` for both variants. -/
theorem count_dataset_sums_witness :
    5 * (5 - 1) < 2 ^ 63 ∧
    ((count (inputDataset 5)).sumA = ((5 * (5 - 1) / 2 : Nat) : Int) ∧
     (count (inputDataset 5)).sumB = ((5 * (5 - 1) : Nat) : Int) ∧
     (countFast (inputDataset 5)).sumA = ((5 * (5 - 1) / 2 : Nat) : Int) ∧
     (countFast (inputDataset 5)).sumB = ((5 * (5 - 1) : Nat) : Int)) :=
  ⟨by norm_num, count_dataset_sums 5 (by norm_num)⟩

/-- C1 counterexample: at `N = 2^33` the mathematical sum `N*(N-1)/2`
overflows `int64`, so `count` returns a wrapped `sumA` different from the
sum `0+1+...+(N-1)` the claim demands. -/
theorem count_dataset_sums_cex :
    ¬ (count (inputDataset (2 ^ 33))).sumA = ((2 ^ 33 * (2 ^ 33 - 1) / 2 : Nat) : Int) := by
  rw [count_sumA_eq, map_wrap64_cast (by norm_num)]
  have h := range_sum_int (2 ^ 33)
  norm_num at h ⊢
  have hS : ((List.range 8589934592).map (fun i : Nat => (i : Int))).sum =
      36893488143124135936 := by omega
  rw [hS]
  decide

/-- C2: for every size whose field-A total `N*(N-1)/2` still fits in `int64`,
the row-oriented `sumFoo` and the column-oriented `sumBar` on the generated
datasets both return `0+1+...+(N-1) = N*(N-1)/2`; moreover the two layout
variants return identical results at every size whatsoever. The unbounded
form of the valued part fails by `int64` overflow, see the counterexample at
`N = 2^33`. -/
theorem layout_sums_agree (n : Nat) (h : n * (n - 1) / 2 < 2 ^ 63) :
    sumFoo (fooDataset n) = ((n * (n - 1) / 2 : Nat) : Int) ∧
    sumBar (barDataset n) = ((n * (n - 1) / 2 : Nat) : Int) ∧
    ∀ m : Nat, sumFoo (fooDataset m) = sumBar (barDataset m) := by
  have ha : sumFoo (fooDataset n) = ((n * (n - 1) / 2 : Nat) : Int) := by
    rw [sumFoo_dataset_eq]; exact gauss_half h
  have hb : sumBar (barDataset n) = ((n * (n - 1) / 2 : Nat) : Int) := by
    rw [sumBar_dataset_eq]; exact gauss_half h
  exact ⟨ha, hb, fun m => (sumFoo_dataset_eq m).trans (sumBar_dataset_eq m).symm⟩

/-- C2 witness: at `N = 5` both layout variants return `10`. -/
theorem layout_sums_agree_witness :
    5 * (5 - 1) / 2 < 2 ^ 63 ∧
    (sumFoo (fooDataset 5) = ((5 * (5 - 1) / 2 : Nat) : Int) ∧
     sumBar (barDataset 5) = ((5 * (5 - 1) / 2 : Nat) : Int) ∧
     ∀ m : Nat, sumFoo (fooDataset m) = sumBar (barDataset m)) :=
  ⟨by norm_num, layout_sums_agree 5 (by norm_num)⟩

/-- C2 counterexample: at `N = 2^33` the sum `N*(N-1)/2` overflows `int64`,
so `sumFoo` returns a wrapped value different from the mathematical sum the
claim demands. -/
theorem layout_sums_agree_cex :
    ¬ sumFoo (fooDataset (2 ^ 33)) = ((2 ^ 33 * (2 ^ 33 - 1) / 2 : Nat) : Int) := by
  rw [sumFoo_dataset_eq, map_wrap64_cast (by norm_num)]
  have h := range_sum_int (2 ^ 33)
  norm_num at h ⊢
  have hS : ((List.range 8589934592).map (fun i : Nat => (i : Int))).sum =
      36893488143124135936 := by omega
  rw [hS]
  decide

/-- C3: on every input slice whatsoever, the unpadded `count` and the padded
`countFast` return equal `sumA` fields and equal `sumB` fields, so the
identical-sums assertion of `CountBenchmark` succeeds on every dataset. -/
theorem count_countFast_agree :
    ∀ inputs : List Input,
      (count inputs).sumA = (countFast inputs).sumA ∧
      (count inputs).sumB = (countFast inputs).sumB ∧
      sumsMatch (count inputs) (countFast inputs) = true := by
  intro inputs
  refine ⟨rfl, rfl, ?_⟩
  simp [sumsMatch, count, countFast]

/-- C6: on every input slice, the padding region of the `FastResult` returned
by `countFast` is exactly the zero-initialised padding of the starting value
`FastResult{}`: neither goroutine ever assigns it, so it stays all zero. -/
theorem countFast_pad_untouched :
    ∀ inputs : List Input,
      (countFast inputs).pad = FastResult.init.pad ∧
      (countFast inputs).pad = List.replicate 56 0 :=
  fun _ => ⟨rfl, rfl⟩

/-- C4: in every generated dataset, position `i` holds field A `= int64(i)`
and field B `= int64(2*i)`, which equal `i` and `2*i` whenever `2*i` fits in
`int64`; the two parallel slices of the column layout always have equal
length and position `i` of each projects the same logical record as position
`i` of the row layout. The unrestricted form of the field-B equation fails
by `int64` overflow at `i = 2^62`, see the counterexample. -/
theorem dataset_generation_spec (n i : Nat) (hi : i < n) (hov : 2 * i < 2 ^ 63) :
    (fooDataset n)[i]? = some { a := (i : Int), b := (2 * (i : Int) : Int) } ∧
    (inputDataset n)[i]? = some { a := (i : Int), b := (2 * (i : Int) : Int) } ∧
    (barDataset n).a[i]? = some (i : Int) ∧
    (barDataset n).b[i]? = some (2 * (i : Int)) ∧
    (barDataset n).a.length = (barDataset n).b.length ∧
    (barDataset n).a[i]? = ((fooDataset n)[i]?).map Foo.a ∧
    (barDataset n).b[i]? = ((fooDataset n)[i]?).map Foo.b := by
  have hw1 : wrap64 (i : Int) = (i : Int) := by
    refine wrap64_eq_self (by omega) ?_
    have : (i : Int) < ((2 ^ 63 : Nat) : Int) := by exact_mod_cast Nat.lt_of_lt_of_le (by omega) (le_refl _)
    simpa using this
  have hw2 : wrap64 (2 * (i : Int)) = 2 * (i : Int) := by
    refine wrap64_eq_self (by omega) ?_
    have : ((2 * i : Nat) : Int) < ((2 ^ 63 : Nat) : Int) := by exact_mod_cast hov
    push_cast at this
    omega
  refine ⟨?_, ?_, ?_, ?_, ?_, ?_, ?_⟩ <;>
    simp [fooDataset, inputDataset, barDataset, List.getElem?_map,
      List.getElem?_range, hi, hw1, hw2]

/-- C4 witness: at size `5`, index `3`, both layouts hold the record
`(3, 6)`, the parallel slices have equal length and are index-aligned. -/
theorem dataset_generation_spec_witness :
    3 < 5 ∧ 2 * 3 < 2 ^ 63 ∧
    ((fooDataset 5)[3]? = some { a := (3 : Int), b := (6 : Int) } ∧
     (inputDataset 5)[3]? = some { a := (3 : Int), b := (6 : Int) } ∧
     (barDataset 5).a[3]? = some (3 : Int) ∧
     (barDataset 5).b[3]? = some (6 : Int) ∧
     (barDataset 5).a.length = (barDataset 5).b.length ∧
     (barDataset 5).a[3]? = ((fooDataset 5)[3]?).map Foo.a ∧
     (barDataset 5).b[3]? = ((fooDataset 5)[3]?).map Foo.b) := by
  refine ⟨by norm_num, by norm_num, ?_⟩
  have h := dataset_generation_spec 5 3 (by norm_num) (by norm_num)
  norm_num at h ⊢
  exact h

/-- C4 counterexample: in a dataset of `2^62 + 1` records, the field-B entry
at index `2^62` is `int64(2^63)`, which wraps to `-2^63` instead of the
claimed `2*i = 2^63`. -/
theorem dataset_generation_spec_cex :
    ¬ (barDataset (2 ^ 62 + 1)).b[(2 ^ 62 : Nat)]? = some ((2 : Int) ^ 63) := by
  have hlt : (2 ^ 62 : Nat) < 2 ^ 62 + 1 := by omega
  simp only [barDataset, List.getElem?_map, List.getElem?_range, hlt, if_pos,
    Option.map_some]
  intro hcontra
  simp only [Option.map_some', Option.some_inj] at hcontra
  have : wrap64 (2 * ((2 ^ 62 : Nat) : Int)) = -(2 ^ 63) := by
    unfold wrap64
    norm_num
  rw [this] at hcontra
  norm_num at hcontra

/-- Literal index-by-index reading of the accumulation loops
`for i := 0; i < len(xs); i++ { sum += f(xs[i]) }`: every slice access is
performed through the partial lookup `xs[i]?`, and an out-of-bounds access
(a Go panic) surfaces as `none`. -/
def loopSum {α : Type} (f : α → Int) (xs : List α) (i : Nat) (sum : Int) :
    Option Int :=
  if i < xs.length then
    match xs[i]? with
    | some v => loopSum f xs (i + 1) (wadd sum (f v))
    | none => none
  else
    some sum
termination_by xs.length - i
decreasing_by simp_wf; omega

/-- `sumFoo` with every slice access bounds-checked. -/
def sumFooChecked (foo : List Foo) : Option Int :=
  loopSum Foo.a foo 0 0

/-- `sumBar` with every slice access bounds-checked. The loop bound is the
length of `bar.a`, regardless of `bar.b`, exactly as at run_benchmarks.go
line 16. -/
def sumBarChecked (bar : Bar) : Option Int :=
  loopSum id bar.a 0 0

/-- `count` with every slice access of both goroutines bounds-checked. -/
def countChecked (inputs : List Input) : Option Result :=
  match loopSum Input.a inputs 0 0, loopSum Input.b inputs 0 0 with
  | some sa, some sb => some { sumA := sa, sumB := sb }
  | _, _ => none

/-- `countFast` with every slice access of both goroutines bounds-checked. -/
def countFastChecked (inputs : List Input) : Option FastResult :=
  match loopSum Input.a inputs 0 0, loopSum Input.b inputs 0 0 with
  | some sa, some sb => some { FastResult.init with sumA := sa, sumB := sb }
  | _, _ => none

theorem loopSum_eq {α : Type} (f : α → Int) (xs : List α) :
    ∀ (k i : Nat) (s : Int), xs.length - i ≤ k →
      loopSum f xs i s =
        some ((xs.drop i).foldl (fun sum x => wadd sum (f x)) s) := by
  intro k
  induction k with
  | zero =>
    intro i s h
    have hge : ¬ i < xs.length := by omega
    rw [loopSum, if_neg hge, List.drop_eq_nil_of_le (by omega)]
    rfl
  | succ k ih =>
    intro i s h
    by_cases hlt : i < xs.length
    · have hget : xs[i]? = some (xs.get ⟨i, hlt⟩) := by
        simp [List.getElem?_eq_getElem hlt]
      rw [loopSum, if_pos hlt, hget]
      show loopSum f xs (i + 1) (wadd s (f (xs.get ⟨i, hlt⟩))) = _
      rw [ih (i + 1) (wadd s (f (xs.get ⟨i, hlt⟩))) (by omega)]
      have hdrop : xs.drop i = xs.get ⟨i, hlt⟩ :: xs.drop (i + 1) :=
        List.drop_eq_getElem_cons hlt
      rw [hdrop, List.foldl_cons]
    · rw [loopSum, if_neg hlt, List.drop_eq_nil_of_le (by omega)]
      rfl

theorem loopSum_total {α : Type} (f : α → Int) (xs : List α) :
    loopSum f xs 0 0 = some (sumCol f xs) := by
  rw [loopSum_eq f xs xs.length 0 0 (by omega)]
  rfl

/-- C5: every variant returns zero sums on the empty dataset, and in the
bounds-checked reading of the loops no variant ever performs an
out-of-bounds slice access on any input (no run returns `none`). -/
theorem empty_dataset_safe :
    sumFoo (fooDataset 0) = 0 ∧
    sumBar (barDataset 0) = 0 ∧
    count (inputDataset 0) = Result.init ∧
    countFast (inputDataset 0) = FastResult.init ∧
    (∀ foo : List Foo, sumFooChecked foo = some (sumFoo foo)) ∧
    (∀ bar : Bar, sumBarChecked bar = some (sumBar bar)) ∧
    (∀ inputs : List Input, countChecked inputs = some (count inputs)) ∧
    (∀ inputs : List Input, countFastChecked inputs = some (countFast inputs)) := by
  refine ⟨rfl, rfl, rfl, rfl, ?_, ?_, ?_, ?_⟩
  · intro foo
    exact loopSum_total Foo.a foo
  · intro bar
    exact loopSum_total id bar.a
  · intro inputs
    rw [countChecked, loopSum_total, loopSum_total]
    rfl
  · intro inputs
    rw [countFastChecked, loopSum_total, loopSum_total]
    rfl

/-- Outcome of the benchmark reporting branch: which variant is announced as
faster, with the printed multiplier, or the tie message. -/
inductive DurationReport where
  | firstFaster (ratio : ℚ)
  | secondFaster (ratio : ℚ)
  | tie
deriving DecidableEq

/-- Reporting branch of both drivers (run_benchmarks.go lines 101-109 and
226-234): if the first duration is strictly smaller the first variant is
reported faster with multiplier `second/first`; symmetrically for the
second; otherwise the tie message is printed. The float64 quotient of the
source is modelled as an exact rational. -/
def compareDurations (dFirst dSecond : Int) : DurationReport :=
  if dFirst < dSecond then
    DurationReport.firstFaster ((dSecond : ℚ) / (dFirst : ℚ))
  else if dSecond < dFirst then
    DurationReport.secondFaster ((dFirst : ℚ) / (dSecond : ℚ))
  else
    DurationReport.tie

/-- C7: for positive measured durations, the reporting branch names the
variant with the strictly smaller duration as the faster one, the printed
multiplier is slower duration over faster duration and hence at least 1,
and the tie message appears exactly when the two durations coincide. -/
theorem compare_durations_spec (d1 d2 : Int) (h1 : 0 < d1) (h2 : 0 < d2) :
    (d1 < d2 →
      compareDurations d1 d2 = DurationReport.firstFaster ((d2 : ℚ) / (d1 : ℚ)) ∧
      1 ≤ (d2 : ℚ) / (d1 : ℚ)) ∧
    (d2 < d1 →
      compareDurations d1 d2 = DurationReport.secondFaster ((d1 : ℚ) / (d2 : ℚ)) ∧
      1 ≤ (d1 : ℚ) / (d2 : ℚ)) ∧
    (compareDurations d1 d2 = DurationReport.tie ↔ d1 = d2) := by
  have hq1 : (0 : ℚ) < (d1 : ℚ) := by exact_mod_cast h1
  have hq2 : (0 : ℚ) < (d2 : ℚ) := by exact_mod_cast h2
  refine ⟨fun hlt => ?_, fun hlt => ?_, ?_, ?_⟩
  · rw [compareDurations, if_pos hlt]
    refine ⟨rfl, ?_⟩
    rw [le_div_iff₀ hq1, one_mul]
    exact_mod_cast hlt.le
  · have hn : ¬ d1 < d2 := by omega
    rw [compareDurations, if_neg hn, if_pos hlt]
    refine ⟨rfl, ?_⟩
    rw [le_div_iff₀ hq2, one_mul]
    exact_mod_cast hlt.le
  · intro ht
    by_contra hne
    rcases lt_or_gt_of_ne hne with hlt | hlt
    · rw [compareDurations, if_pos hlt] at ht
      exact DurationReport.noConfusion ht
    · have hn : ¬ d1 < d2 := by omega
      rw [compareDurations, if_neg hn, if_pos hlt] at ht
      exact DurationReport.noConfusion ht
  · intro he
    subst he
    rw [compareDurations, if_neg (lt_irrefl d1), if_neg (lt_irrefl d1)]

/-- C7 witness: durations 2 and 6 — the first variant is reported 3x
faster, the multiplier is at least 1, and no tie is reported. -/
theorem compare_durations_spec_witness :
    (0 : Int) < 2 ∧ (0 : Int) < 6 ∧
    (((2 : Int) < 6 →
       compareDurations 2 6 = DurationReport.firstFaster (((6 : Int) : ℚ) / ((2 : Int) : ℚ)) ∧
       1 ≤ ((6 : Int) : ℚ) / ((2 : Int) : ℚ)) ∧
     ((6 : Int) < 2 →
       compareDurations 2 6 = DurationReport.secondFaster (((2 : Int) : ℚ) / ((6 : Int) : ℚ)) ∧
       1 ≤ ((2 : Int) : ℚ) / ((6 : Int) : ℚ)) ∧
     (compareDurations 2 6 = DurationReport.tie ↔ (2 : Int) = 6)) :=
  ⟨by norm_num, by norm_num, compare_durations_spec 2 6 (by norm_num) (by norm_num)⟩

/-- Global mutable state of the package: the only package-level mutable
object is the `sync.Pool` of `[]Foo` buffers (run_benchmarks.go lines
35-39), modelled as the list of buffers the pool currently holds. -/
structure GlobalState where
  pool : List (List Foo)
deriving DecidableEq, Repr

/-- `sumFoo` as an action on the global state: its body references no
package-level variable, so it returns its pure value and the unchanged
state. -/
def sumFooExec (foo : List Foo) (g : GlobalState) : Int × GlobalState :=
  (sumFoo foo, g)

/-- `sumBar` as an action on the global state (no global is referenced). -/
def sumBarExec (bar : Bar) (g : GlobalState) : Int × GlobalState :=
  (sumBar bar, g)

/-- `count` as an action on the global state (no global is referenced). -/
def countExec (inputs : List Input) (g : GlobalState) : Result × GlobalState :=
  (count inputs, g)

/-- `countFast` as an action on the global state (no global is referenced). -/
def countFastExec (inputs : List Input) (g : GlobalState) :
    FastResult × GlobalState :=
  (countFast inputs, g)

/-- Driver loop `var result T; for i := 0; i < n; i++ { result = f(...) }`
(run_benchmarks.go lines 75-78, 83-86, 202-205, 210-213): the value of
`result` and the global state after `n` iterations, starting from the zero
value. -/
def benchLoop {β : Type} (f : GlobalState → β × GlobalState) (zero : β) :
    Nat → GlobalState → β × GlobalState
  | 0, g => (zero, g)
  | Nat.succ k, g => f (benchLoop f zero k g).2

theorem benchLoop_const {β : Type} (v zero : β) (n : Nat) (g : GlobalState)
    (h : 1 ≤ n) :
    benchLoop (fun g2 => (v, g2)) zero n g = (v, g) := by
  induction n with
  | zero => omega
  | succ k ih =>
    rcases Nat.eq_zero_or_pos k with rfl | hk
    · rfl
    · rw [benchLoop, ih hk]

/-- C8: running any of the four variants any positive number of times over
an unchanged dataset yields the same sums on every invocation (the driver
loop's final value is independent of the iteration count), and the global
pool state after the whole loop is exactly the initial one: no variant
touches the package-level pool or any other shared state. -/
theorem variants_pure_spec :
    (∀ (foo : List Foo) (g : GlobalState) (n : Nat), 1 ≤ n →
      benchLoop (sumFooExec foo) 0 n g = (sumFoo foo, g)) ∧
    (∀ (bar : Bar) (g : GlobalState) (n : Nat), 1 ≤ n →
      benchLoop (sumBarExec bar) 0 n g = (sumBar bar, g)) ∧
    (∀ (inputs : List Input) (g : GlobalState) (n : Nat), 1 ≤ n →
      benchLoop (countExec inputs) Result.init n g = (count inputs, g)) ∧
    (∀ (inputs : List Input) (g : GlobalState) (n : Nat), 1 ≤ n →
      benchLoop (countFastExec inputs) FastResult.init n g = (countFast inputs, g)) :=
  ⟨fun foo g n h => benchLoop_const (sumFoo foo) 0 n g h,
   fun bar g n h => benchLoop_const (sumBar bar) 0 n g h,
   fun inputs g n h => benchLoop_const (count inputs) Result.init n g h,
   fun inputs g n h => benchLoop_const (countFast inputs) FastResult.init n g h⟩

/-- C8 witness: two iterations of `sumFoo` over a one-record dataset with an
empty pool return the sum `7` and leave the pool untouched, and likewise for
the other three variants. -/
theorem variants_pure_spec_witness :
    1 ≤ 2 ∧
    benchLoop (sumFooExec [{ a := 7, b := 9 }]) 0 2 { pool := [] } =
      (sumFoo [{ a := 7, b := 9 }], { pool := [] }) ∧
    benchLoop (sumBarExec { a := [7], b := [9] }) 0 2 { pool := [] } =
      (sumBar { a := [7], b := [9] }, { pool := [] }) ∧
    benchLoop (countExec [{ a := 7, b := 9 }]) Result.init 2 { pool := [] } =
      (count [{ a := 7, b := 9 }], { pool := [] }) ∧
    benchLoop (countFastExec [{ a := 7, b := 9 }]) FastResult.init 2 { pool := [] } =
      (countFast [{ a := 7, b := 9 }], { pool := [] }) :=
  ⟨by norm_num,
   variants_pure_spec.1 [{ a := 7, b := 9 }] { pool := [] } 2 (by norm_num),
   variants_pure_spec.2.1 { a := [7], b := [9] } { pool := [] } 2 (by norm_num),
   variants_pure_spec.2.2.1 [{ a := 7, b := 9 }] { pool := [] } 2 (by norm_num),
   variants_pure_spec.2.2.2 [{ a := 7, b := 9 }] { pool := [] } 2 (by norm_num)⟩

/-- C10: `sumBar` depends only on the `a` slice of its argument: it returns
the wrapped sum of `bar.a`, any two `Bar` values sharing the `a` slice get
the same result whatever their `b` slices are (equal length or not), and
the bounds-checked reading never faults even when the invariant
`len(a) = len(b)` is broken. -/
theorem sumBar_reads_only_a :
    (∀ bar : Bar, sumBar bar = wrap64 bar.a.sum) ∧
    (∀ a b1 b2 : List Int, sumBar { a := a, b := b1 } = sumBar { a := a, b := b2 }) ∧
    (∀ a b : List Int, sumBarChecked { a := a, b := b } =
      some (sumBar { a := a, b := b })) := by
  refine ⟨?_, ?_, ?_⟩
  · intro bar
    rw [sumBar, sumCol_eq_wrap_sum, List.map_id]
  · intro a b1 b2
    rfl
  · intro a b
    exact loopSum_total id a

/-- One atomic write performed by the two goroutines of `count` and
`countFast`: either `result.sumA += x` (first worker) or `result.sumB += x`
(second worker). -/
inductive Step where
  | addA (x : Int)
  | addB (x : Int)
deriving DecidableEq

/-- Effect of one write on the shared result record: each kind of step
updates only its own field. -/
def applyStep (r : Result) : Step → Result
  | Step.addA x => { r with sumA := wadd r.sumA x }
  | Step.addB x => { r with sumB := wadd r.sumB x }

/-- Execution of a schedule of writes against the shared result record. -/
def execSteps (r : Result) (l : List Step) : Result :=
  l.foldl applyStep r

/-- Write sequence of the first goroutine (run_benchmarks.go lines 141-146):
one `sumA += inputs[i].a` per record, in index order. -/
def traceA (inputs : List Input) : List Step :=
  inputs.map (fun x => Step.addA x.a)

/-- Write sequence of the second goroutine (run_benchmarks.go lines
148-153): one `sumB += inputs[i].b` per record, in index order. -/
def traceB (inputs : List Input) : List Step :=
  inputs.map (fun x => Step.addB x.b)

/-- `Interleave l1 l2 l` means the scheduler produced the global write order
`l` by merging the two workers' write sequences `l1` and `l2`, preserving
each worker's program order. -/
inductive Interleave : List Step → List Step → List Step → Prop where
  | nil : Interleave [] [] []
  | left {x : Step} {l1 l2 l : List Step} :
      Interleave l1 l2 l → Interleave (x :: l1) l2 (x :: l)
  | right {x : Step} {l1 l2 l : List Step} :
      Interleave l1 l2 l → Interleave l1 (x :: l2) (x :: l)

theorem applyStep_comm (r : Result) (x y : Int) :
    applyStep (applyStep r (Step.addA x)) (Step.addB y) =
      applyStep (applyStep r (Step.addB y)) (Step.addA x) := by
  simp [applyStep]

/-- Effect of one write on the padded shared record of `countFast`: each
kind of step updates only its own sum field and never the padding. -/
def applyStepF (r : FastResult) : Step → FastResult
  | Step.addA x => { r with sumA := wadd r.sumA x }
  | Step.addB x => { r with sumB := wadd r.sumB x }

/-- Execution of a schedule of writes against the padded shared record. -/
def execStepsF (r : FastResult) (l : List Step) : FastResult :=
  l.foldl applyStepF r

theorem applyStepF_comm (r : FastResult) (x y : Int) :
    applyStepF (applyStepF r (Step.addA x)) (Step.addB y) =
      applyStepF (applyStepF r (Step.addB y)) (Step.addA x) := by
  simp [applyStepF]

theorem exec_push_addB {σ : Type} (ap : σ → Step → σ)
    (hcomm : ∀ (r : σ) (x y : Int),
      ap (ap r (Step.addA x)) (Step.addB y) = ap (ap r (Step.addB y)) (Step.addA x))
    (y : Int) :
    ∀ l1 : List Step, (∀ s ∈ l1, ∃ x, s = Step.addA x) → ∀ r : σ,
      List.foldl ap (ap r (Step.addB y)) l1 =
        ap (List.foldl ap r l1) (Step.addB y) := by
  intro l1
  induction l1 with
  | nil => intro _ r; rfl
  | cons a t ih =>
    intro hA r
    obtain ⟨x, rfl⟩ := hA a (List.mem_cons_self a t)
    rw [List.foldl_cons, ← hcomm]
    exact ih (fun s hs => hA s (List.mem_cons_of_mem _ hs)) (ap r (Step.addA x))

theorem exec_interleave {σ : Type} (ap : σ → Step → σ)
    (hcomm : ∀ (r : σ) (x y : Int),
      ap (ap r (Step.addA x)) (Step.addB y) = ap (ap r (Step.addB y)) (Step.addA x)) :
    ∀ {l1 l2 l : List Step}, Interleave l1 l2 l →
      (∀ s ∈ l1, ∃ x, s = Step.addA x) → (∀ s ∈ l2, ∃ x, s = Step.addB x) →
      ∀ r : σ, List.foldl ap r l = List.foldl ap (List.foldl ap r l1) l2 := by
  intro l1 l2 l h
  induction h with
  | nil => intro _ _ r; rfl
  | left h ih =>
    intro hA hB r
    rw [List.foldl_cons]
    exact ih (fun s hs => hA s (List.mem_cons_of_mem _ hs)) hB _
  | right h ih =>
    intro hA hB r
    obtain ⟨y, rfl⟩ := hB _ (List.mem_cons_self _ _)
    have h1 := ih hA (fun s hs => hB s (List.mem_cons_of_mem _ hs))
      (ap r (Step.addB y))
    have h2 := exec_push_addB ap hcomm y _ hA r
    show List.foldl ap (ap r (Step.addB y)) _ = _
    rw [h1, h2]
    rfl

theorem execSteps_traceA (inputs : List Input) :
    ∀ r : Result, execSteps r (traceA inputs) =
      { r with sumA := inputs.foldl (fun sum x => wadd sum x.a) r.sumA } := by
  induction inputs with
  | nil => intro r; rfl
  | cons x t ih =>
    intro r
    rw [traceA, List.map_cons, execSteps, List.foldl_cons]
    exact ih { r with sumA := wadd r.sumA x.a }

theorem execSteps_traceB (inputs : List Input) :
    ∀ r : Result, execSteps r (traceB inputs) =
      { r with sumB := inputs.foldl (fun sum x => wadd sum x.b) r.sumB } := by
  induction inputs with
  | nil => intro r; rfl
  | cons x t ih =>
    intro r
    rw [traceB, List.map_cons, execSteps, List.foldl_cons]
    exact ih { r with sumB := wadd r.sumB x.b }

theorem execStepsF_traceA (inputs : List Input) :
    ∀ r : FastResult, execStepsF r (traceA inputs) =
      { r with sumA := inputs.foldl (fun sum x => wadd sum x.a) r.sumA } := by
  induction inputs with
  | nil => intro r; rfl
  | cons x t ih =>
    intro r
    rw [traceA, List.map_cons, execStepsF, List.foldl_cons]
    exact ih { r with sumA := wadd r.sumA x.a }

theorem execStepsF_traceB (inputs : List Input) :
    ∀ r : FastResult, execStepsF r (traceB inputs) =
      { r with sumB := inputs.foldl (fun sum x => wadd sum x.b) r.sumB } := by
  induction inputs with
  | nil => intro r; rfl
  | cons x t ih =>
    intro r
    rw [traceB, List.map_cons, execStepsF, List.foldl_cons]
    exact ih { r with sumB := wadd r.sumB x.b }

/-- C9: each invocation of `count` and of `countFast` consists of exactly
the two workers' write sequences; in both the unpadded and the padded
result record a step of the first worker never touches `sumB`, a step of
the second never touches `sumA`, and in the padded record neither touches
the padding — the write targets are disjoint; and under every scheduler
interleaving of the two sequences the unpadded record ends at exactly
`count inputs` and the padded record at exactly `countFast inputs`. The
outcome is schedule-independent for both variants, which is the formal
content of the absence of a logical data race. -/
theorem count_interleave_spec :
    (∀ (r : Result) (x : Int), (applyStep r (Step.addA x)).sumB = r.sumB) ∧
    (∀ (r : Result) (x : Int), (applyStep r (Step.addB x)).sumA = r.sumA) ∧
    (∀ (r : FastResult) (x : Int),
      (applyStepF r (Step.addA x)).sumB = r.sumB ∧
      (applyStepF r (Step.addA x)).pad = r.pad) ∧
    (∀ (r : FastResult) (x : Int),
      (applyStepF r (Step.addB x)).sumA = r.sumA ∧
      (applyStepF r (Step.addB x)).pad = r.pad) ∧
    ∀ (inputs : List Input) (l : List Step),
      Interleave (traceA inputs) (traceB inputs) l →
      execSteps Result.init l = count inputs ∧
      execStepsF FastResult.init l = countFast inputs := by
  refine ⟨fun r x => rfl, fun r x => rfl, fun r x => ⟨rfl, rfl⟩,
    fun r x => ⟨rfl, rfl⟩, ?_⟩
  intro inputs l hI
  have hA : ∀ s ∈ traceA inputs, ∃ x, s = Step.addA x := by
    intro s hs
    rw [traceA] at hs
    obtain ⟨v, _, rfl⟩ := List.mem_map.mp hs
    exact ⟨v.a, rfl⟩
  have hB : ∀ s ∈ traceB inputs, ∃ x, s = Step.addB x := by
    intro s hs
    rw [traceB] at hs
    obtain ⟨v, _, rfl⟩ := List.mem_map.mp hs
    exact ⟨v.b, rfl⟩
  constructor
  · have hres := exec_interleave applyStep applyStep_comm hI hA hB Result.init
    rw [execSteps, hres]
    show execSteps (execSteps Result.init (traceA inputs)) (traceB inputs) = count inputs
    rw [execSteps_traceA, execSteps_traceB]
    rfl
  · have hres := exec_interleave applyStepF applyStepF_comm hI hA hB FastResult.init
    rw [execStepsF, hres]
    show execStepsF (execStepsF FastResult.init (traceA inputs)) (traceB inputs) =
      countFast inputs
    rw [execStepsF_traceA, execStepsF_traceB]
    rfl

/-- C9 witness: for the one-record dataset `[(3, 4)]` and the schedule that
runs the second worker's write first, the unpadded record still ends at
`count [(3, 4)] = (3, 4)` and the padded record at `countFast [(3, 4)]`. -/
theorem count_interleave_spec_witness :
    Interleave (traceA [{ a := 3, b := 4 }]) (traceB [{ a := 3, b := 4 }])
      [Step.addB 4, Step.addA 3] ∧
    (execSteps Result.init [Step.addB 4, Step.addA 3] = count [{ a := 3, b := 4 }] ∧
     execStepsF FastResult.init [Step.addB 4, Step.addA 3] =
       countFast [{ a := 3, b := 4 }]) := by
  have hI : Interleave (traceA [{ a := 3, b := 4 }]) (traceB [{ a := 3, b := 4 }])
      [Step.addB 4, Step.addA 3] :=
    Interleave.right (Interleave.left Interleave.nil)
  exact ⟨hI, count_interleave_spec.2.2.2.2
    [{ a := 3, b := 4 }] [Step.addB 4, Step.addA 3] hI⟩

end GoStudy
